import Mathlib

/-!
A verification development for the incremental knowledge-graph maintenance
engine of the CalHacks repository (TypeScript backend).  The TypeScript
functions are shallowly embedded as pure Lean functions: the mutable
`GraphService` state becomes an explicit `Graph` value that every operation
takes and returns, JavaScript arrays become `List`s, and the nondeterministic
identifier sources (`randomUUID()`, `Date.now()`, `Math.random()`) become
explicit parameters supplying fresh identifier strings.

JavaScript number arithmetic appearing here is exact: every position
coordinate computed by the layout code is an integer (all spacings are even),
and the similarity comparison `common / min > 0.6` is modelled as an exact
rational comparison (`5 * common > 3 * min` when `min > 0`, with the
JavaScript `NaN`/`Infinity` behaviour of division by zero made explicit),
which agrees with IEEE double evaluation for all token counts that fit in a
label.  String operations are modelled at the ASCII level (`toLowerCase`,
split on whitespace, UTF-16 `length`), which coincides with JavaScript on
ASCII labels.
-/

namespace KG

/-- 2-D position `{x, y}` (all layout coordinates are exact integers). -/
structure Pos where
  x : Int
  y : Int
deriving DecidableEq, Repr

/-- Node importance enumeration from `types/graph.types.ts`. -/
inductive NodeImportance where
  | small
  | medium
  | large
deriving DecidableEq, Repr

/-- React-Flow compatible node, from `types/graph.types.ts`.  The nested
`data` record is flattened: `label`, `category` and `importance` stand for
`data.label`, `data.category`, `data.importance`.  The opaque `metadata`
bag, `timestamp` and the visual `size` are omitted: no verified operation
reads them. -/
structure Node where
  id : String
  label : String
  category : String
  importance : NodeImportance
  position : Pos
deriving DecidableEq, Repr

/-- React-Flow compatible edge, from `types/graph.types.ts` together with
the `relationship` field that `GraphService.addEdge` (part_010) writes at
runtime.  `type` and `animated` are presentation-only but kept because
`mergeNodes` copies them. -/
structure Edge where
  id : String
  source : String
  target : String
  label : Option String
  relationship : Option String
  type : String
  animated : Bool
deriving DecidableEq, Repr

/-- The graph store state: `{ nodes: Node[], edges: Edge[] }`. -/
structure Graph where
  nodes : List Node
  edges : List Edge
deriving DecidableEq, Repr

/-- The empty graph created by the `GraphService` constructor. -/
def emptyGraph : Graph := { nodes := [], edges := [] }

/-! ### ASCII-level models of the JavaScript string primitives -/

/-- ASCII `toLowerCase` on a single character (JS `String.prototype.toLowerCase`
restricted to ASCII). -/
def jsLowerChar (c : Char) : Char :=
  if 'A' ≤ c ∧ c ≤ 'Z' then Char.ofNat (c.toNat + 32) else c

/-- ASCII model of `label.toLowerCase()`. -/
def jsToLower (s : String) : String := String.mk (s.data.map jsLowerChar)

/-- Whitespace test matching the characters the JS regex `\s` matches on
ASCII input. -/
def jsIsWs (c : Char) : Bool := c = ' ' ∨ c = '\t' ∨ c = '\n' ∨ c = '\r'

/-- Helper for `jsSplitWs`: walks the character list accumulating the current
(reversed) token and emits maximal non-whitespace runs. -/
def jsSplitWsAux : List Char → List Char → List String
  | [], cur => if cur.isEmpty then [] else [String.mk cur.reverse]
  | c :: rest, cur =>
      if jsIsWs c then
        if cur.isEmpty then jsSplitWsAux rest []
        else String.mk cur.reverse :: jsSplitWsAux rest []
      else jsSplitWsAux rest (c :: cur)

/-- Model of `label.split(/\s+/)`: the maximal non-whitespace runs of the
string.  (The JS call can additionally produce one empty string at the
front when the input starts with whitespace; every use site filters tokens
by `length > 3`, so empty tokens never matter and are dropped here.) -/
def jsSplitWs (s : String) : List String := jsSplitWsAux s.data []

/-- Exact model of the JS comparison `num / den > 0.6` on non-negative
integers: division by zero yields `NaN` (`0/0`, compares false) or
`+Infinity` (`n/0` with `n > 0`, compares true); otherwise the comparison
is the exact rational one, which IEEE doubles decide identically for all
realistic token counts. -/
def jsRatioGT06 (num den : Nat) : Bool :=
  if den = 0 then decide (0 < num) else decide (3 * den < 5 * num)

end KG

namespace Server

open KG

/-- The per-existing-node duplicate predicate from the `process-transcript`
handler in `server.ts` (lines 178–193): exact case-insensitive label match,
or token-overlap similarity `commonWords.length / min(existingWords.length,
newWords.length) > 0.6`, where both labels are lower-cased, split on
whitespace, and tokens of length ≤ 3 are discarded.  `commonWords` is
`existingWords.filter(w => newWords.includes(w))` — a list filter, counting
repeated tokens of the existing label with multiplicity. -/
def isDuplicateLabel (existingLabelRaw newLabelRaw : String) : Bool :=
  let existingLabel := jsToLower existingLabelRaw
  let newLabel := jsToLower newLabelRaw
  if existingLabel = newLabel then true
  else
    let existingWords := (jsSplitWs existingLabel).filter (fun w => w.length > 3)
    let newWords := (jsSplitWs newLabel).filter (fun w => w.length > 3)
    let commonWords := existingWords.filter (fun w => newWords.contains w)
    jsRatioGT06 commonWords.length (min existingWords.length newWords.length)

/-- The whole duplicate test of the node loop:
`currentGraph.nodes.some(existingNode => ...)`. -/
def isDuplicate (newLabel : String) (nodes : List Node) : Bool :=
  nodes.any (fun existingNode => isDuplicateLabel existingNode.label newLabel)

/-- The qualifying-token list of a label: lower-case, split on whitespace,
tokens of length ≤ 3 discarded (the `existingWords`/`newWords` computation
inside the duplicate test). -/
def qualifyingTokens (s : String) : List String :=
  (jsSplitWs (jsToLower s)).filter (fun w => w.length > 3)

/-- Modelled from the spec's words for claim C1 (refinement comparison
only; the source implementation is `isDuplicate` above): tokenize both
labels, discard tokens of length ≤ 3, and compare
`|tokensA ∩ tokensB| / min(|tokensA|, |tokensB|)` against 0.6, where the
intersection is a *set* intersection of the two token sets (duplicate
tokens counted once, via `List.dedup`). -/
def specIsDuplicate (newLabel : String) (nodes : List Node) : Bool :=
  nodes.any (fun existingNode =>
    let a := jsToLower existingNode.label
    let b := jsToLower newLabel
    if a = b then true
    else
      let tokensA := ((jsSplitWs b).filter (fun w => w.length > 3)).dedup
      let tokensB := ((jsSplitWs a).filter (fun w => w.length > 3)).dedup
      jsRatioGT06 (tokensA.inter tokensB).length (min tokensA.length tokensB.length))

end Server

namespace KG

/-- A test node with the given label (id/category/importance/position are
irrelevant to the duplicate filter). -/
def mkTestNode (lbl : String) : Node :=
  { id := "n1", label := lbl, category := "service"
    importance := NodeImportance.small, position := { x := 0, y := 0 } }

end KG

namespace GraphService

open KG

/-- Input format for adding nodes, from `types/graph.types.ts` (`NodeInput`),
restricted to the fields `addNode` reads. -/
structure NodeInput where
  label : String
  category : String
  position : Option Pos
  importance : Option NodeImportance
deriving DecidableEq, Repr

/-- `GraphService.addNode` (part_010, lines 704–743): assigns the fresh id
(`randomUUID()`, supplied here as `freshId`), defaults importance to
`small`, and places the node on a simple grid when no position is given:
`x = (nodeCount % 4) * 300 + 100`, `y = floor(nodeCount / 4) * 200 + 100`. -/
def addNode (g : Graph) (input : NodeInput) (freshId : String) : Node × Graph :=
  let importance := input.importance.getD NodeImportance.small
  let position :=
    match input.position with
    | some p => p
    | none =>
        let nodeCount := g.nodes.length
        { x := ((nodeCount % 4) * 300 + 100 : Nat), y := ((nodeCount / 4) * 200 + 100 : Nat) }
  let newNode : Node :=
    { id := freshId, label := input.label, category := input.category
      importance := importance, position := position }
  (newNode, { g with nodes := g.nodes ++ [newNode] })

/-- `GraphService.addEdge` (part_010, lines 749–784), merged over its two
calling conventions: the object form supplies `relationship`, the positional
form leaves it `undefined`.  The generated id
`e-<source>-<target>-<Date.now()>-<random36>` is nondeterministic; it is
supplied as `freshId`.  `type` defaults to `"smoothstep"`, `animated` to
`false`. -/
def addEdge (g : Graph) (source target : String) (label relationship : Option String)
    (type : Option String) (animated : Option Bool) (freshId : String) : Edge × Graph :=
  let newEdge : Edge :=
    { id := freshId, source := source, target := target, label := label
      relationship := relationship, type := type.getD "smoothstep"
      animated := animated.getD false }
  (newEdge, { g with edges := g.edges ++ [newEdge] })

/-- `GraphService.removeNode` (part_010 lines 477–490; the same code appears
in `services/graph.service.ts` lines 79–89): `findIndex`, return `false`
when absent, otherwise `splice` the node out and filter away every edge
whose `source` or `target` equals the removed id. -/
def removeNode (g : Graph) (nodeId : String) : Bool × Graph :=
  match g.nodes.findIdx? (fun node => node.id = nodeId) with
  | none => (false, g)
  | some nodeIndex =>
      (true,
       { nodes := g.nodes.eraseIdx nodeIndex
         edges := g.edges.filter (fun edge => decide (edge.source ≠ nodeId ∧ edge.target ≠ nodeId)) })

/-- `MAX_TREE_DEPTH = 6` (part_010 line 411). -/
def MAX_TREE_DEPTH : Nat := 6

/-- JavaScript `Math.max(...list)` for a non-empty list of naturals. -/
def jsMaxList (l : List Nat) : Nat := l.foldl max 0

/-- `GraphService.calculateNodeDepth` (part_010 lines 609–631).  The JS
recursion mutates one shared `visited` set (`Set<string>`), threaded here
explicitly through the sequential `map` over the parent edges; the `fuel`
argument makes the recursion structural.  Any `fuel` at least
`edges.length + 2` yields the value of the unbounded JS recursion (see the
stability part of the C5 theorem below): every nested call pushes a
previously unvisited node id onto `visited`, and every recursion target is
an edge source, so the nesting depth never exceeds the number of distinct
edge sources plus one. -/
def calcDepth (edges : List Edge) : Nat → List String → String → Nat × List String
  | 0, visited, _ => (0, visited)
  | fuel + 1, visited, nodeId =>
      if nodeId ∈ visited then (0, visited)
      else
        let visited' := visited ++ [nodeId]
        let parentEdges := edges.filter (fun edge => decide (edge.target = nodeId))
        if parentEdges.isEmpty then (0, visited')
        else
          let r := parentEdges.foldl
            (fun acc edge =>
              let d := calcDepth edges fuel acc.2 edge.source
              (acc.1 ++ [d.1], d.2))
            (([] : List Nat), visited')
          (min (jsMaxList r.1 + 1) MAX_TREE_DEPTH, r.2)

/-- The `parentEdges.map(edge => this.calculateNodeDepth(edge.source, visited))`
step of `calculateNodeDepth`, as a standalone function: returns the list of
parent depth contributions together with the final shared visited set. -/
def calcDepthParents (edges : List Edge) (fuel : Nat) (visited : List String)
    (parents : List Edge) : List Nat × List String :=
  parents.foldl
    (fun acc edge =>
      let d := calcDepth edges fuel acc.2 edge.source
      (acc.1 ++ [d.1], d.2))
    (([] : List Nat), visited)

/-- The edges pointing TO a node (`edges.filter(edge => edge.target === nodeId)`). -/
def parentEdgesOf (edges : List Edge) (nodeId : String) : List Edge :=
  edges.filter (fun edge => decide (edge.target = nodeId))

/-- Top-level entry of the depth computation: fresh empty visited set, with
fuel `edges.length + 2`, which is enough for the fuel never to bite. -/
def calculateNodeDepth (edges : List Edge) (nodeId : String) : Nat :=
  (calcDepth edges (edges.length + 2) [] nodeId).1

/-- Layout constants (part_010 lines 407–410). -/
def TREE_VERTICAL_SPACING : Int := 200

def TREE_HORIZONTAL_SPACING : Int := 350

def TREE_ROOT_Y : Int := 50

def TREE_ROOT_X_START : Int := 600

/-- The position `recalculateTreeLayout` (part_010 lines 900–942) assigns to
the node at list index `i`: group the nodes by depth; within the group the
node keeps its insertion-order index.  All arithmetic is exact: group
widths are even multiples of 50, so the float halving is integral. -/
def treeLayoutPos (edges : List Edge) (nodes : List Node) (i : Nat) (n : Node) : Pos :=
  let depth := calculateNodeDepth edges n.id
  let totalNodes := nodes.countP (fun m => decide (calculateNodeDepth edges m.id = depth))
  let totalWidth : Int := max ((totalNodes : Int) * TREE_HORIZONTAL_SPACING) 400
  let startX : Int := TREE_ROOT_X_START - totalWidth / 2
  let index := (nodes.take i).countP (fun m => decide (calculateNodeDepth edges m.id = depth))
  { x := startX + (index : Int) * TREE_HORIZONTAL_SPACING
    y := TREE_ROOT_Y + (depth : Int) * TREE_VERTICAL_SPACING }

/-- In-order reposition of every node (the `forEach` with per-level index of
`recalculateTreeLayout`), written as index-tracking recursion. -/
def layoutNodes (edges : List Edge) (all : List Node) : Nat → List Node → List Node
  | _, [] => []
  | i, n :: rest =>
      { n with position := treeLayoutPos edges all i n } :: layoutNodes edges all (i + 1) rest

/-- `GraphService.recalculateTreeLayout` (part_010 lines 900–942): only node
positions change; node order, ids and edges are untouched. -/
def recalculateTreeLayout (g : Graph) : Graph :=
  { g with nodes := layoutNodes g.edges g.nodes 0 g.nodes }

/-- The body of the edge-transfer `forEach` inside `mergeNodes` (part_010
lines 873–883): a pre-existing edge with its `source` in the merged set and
its `target` outside is re-created as `mergedNode.id → target`; the mirror
case symmetrically; other edges are left alone.  The re-creation calls the
positional `addEdge` form with `edge.label`, so the new edge's
`relationship` is `undefined`. -/
def mergeTransferStep (nodeIds : List String) (mid : String) (sup : Nat → String)
    (acc : Nat × Graph) (edge : Edge) : Nat × Graph :=
  if decide (edge.source ∈ nodeIds ∧ edge.target ∉ nodeIds) then
    (acc.1 + 1, (addEdge acc.2 mid edge.target edge.label none
      (some edge.type) (some edge.animated) (sup acc.1)).2)
  else if decide (edge.source ∉ nodeIds ∧ edge.target ∈ nodeIds) then
    (acc.1 + 1, (addEdge acc.2 edge.source mid edge.label none
      (some edge.type) (some edge.animated) (sup acc.1)).2)
  else acc

/-- `GraphService.mergeNodes` (part_010 lines 834–894).  The new node id
(`randomUUID()`) is supplied as `newNodeId` and the generated edge ids as
`edgeIdSupply`.  The `forEach` over `this.graph.edges` visits only the edges
present when the loop starts (JS `forEach` caches the length), modelled by
folding over the pre-merge edge list while appending to the accumulator
graph.  The transfer calls the positional `addEdge` form with `edge.label`,
so the `relationship` field of a transferred edge is `undefined`. -/
def mergeNodes (g : Graph) (nodeIds : List String) (mergedLabel : String)
    (mergedCategory : Option String) (newNodeId : String) (edgeIdSupply : Nat → String) :
    Option Node × Graph :=
  let nodesToMerge := g.nodes.filter (fun n => decide (n.id ∈ nodeIds))
  if nodesToMerge.length < 2 then (none, g)
  else
    let r := addNode g
      { label := mergedLabel, category := mergedCategory.getD "System"
        position := none, importance := some NodeImportance.large } newNodeId
    let mergedNode := r.1
    let g1 := r.2
    let g2 := (g.edges.foldl (mergeTransferStep nodeIds mergedNode.id edgeIdSupply)
      ((0 : Nat), g1)).2
    let g3 := { g2 with
      edges := g2.edges.filter (fun edge => decide (¬ (edge.source ∈ nodeIds ∧ edge.target ∈ nodeIds))) }
    let g4 := nodeIds.foldl (fun acc i => (removeNode acc i).2) g3
    (some mergedNode, g4)

end GraphService

namespace GraphServiceSimple

/-- Edge shape of `services/graph.service.ts` (no `relationship`, `type` or
`animated` fields). -/
structure EdgeS where
  id : String
  source : String
  target : String
  label : Option String
deriving DecidableEq, Repr

/-- `GraphService.addEdge` from `services/graph.service.ts` lines 30–40: the
id is the deterministic string `e-<source>-<target>`; the edge is appended
to the edge collection.  Only the edge list matters to this operation. -/
def addEdge (edges : List EdgeS) (source target : String) (label : Option String) :
    EdgeS × List EdgeS :=
  let newEdge : EdgeS :=
    { id := "e-" ++ source ++ "-" ++ target, source := source, target := target, label := label }
  (newEdge, edges ++ [newEdge])

end GraphServiceSimple

namespace Server

open KG

/-- `edges.filter(e => e.source === node.id || e.target === node.id).length`,
the connection count used by the finalize handler in `server.ts`. -/
def connectionsCount (edges : List Edge) (nodeId : String) : Nat :=
  (edges.filter (fun e => decide (e.source = nodeId ∨ e.target = nodeId))).length

/-- The isolated-node computation of the rule-based finalize fallback
(`server.ts` lines 577–584): nodes with zero incoming plus outgoing edges. -/
def isolatedNodes (g : Graph) : List Node :=
  g.nodes.filter (fun node => decide (connectionsCount g.edges node.id = 0))

/-- One step of the hub search (`server.ts` lines 595–604): keep the running
most-connected node, replacing it only on a strictly greater count. -/
def hubFoldStep (edges : List Edge) (acc : Node × Nat) (node : Node) : Node × Nat :=
  let connections := connectionsCount edges node.id
  if connections > acc.2 then (node, connections) else acc

/-- Placeholder node for the (unreachable) `nodes[0]` read on an empty
graph; the fallback only consults the hub when an isolated node exists, so
the graph is non-empty there. -/
def dummyNode : Node :=
  { id := "", label := "", category := "", importance := NodeImportance.small
    position := { x := 0, y := 0 } }

/-- The hub chosen by the fallback: fold over all nodes starting from
`(nodes[0], 0)` with strict improvement, i.e. the first node attaining the
maximum connection count. -/
def hubOf (g : Graph) : Node :=
  (g.nodes.foldl (hubFoldStep g.edges) (g.nodes.headD dummyNode, 0)).1

/-- The rule-based finalize fallback (`server.ts` lines 575–635): compute
the isolated nodes; if there are any, find the most connected node and add
one `hub -> isolated` edge with relationship `"relates to"` per isolated
node (object-form `addEdge`, ids supplied by `idSupply`); finally
recalculate the tree layout.  Returns the number of edges added together
with the resulting graph. -/
def finalizeFallback (g : Graph) (idSupply : Nat → String) : Nat × Graph :=
  let isolated := isolatedNodes g
  let added :=
    if isolated.isEmpty then ((0 : Nat), g)
    else
      isolated.foldl
        (fun acc isoNode =>
          let r := GraphService.addEdge acc.2 (hubOf g).id isoNode.id none
            (some "relates to") none none (idSupply acc.1)
          (acc.1 + 1, r.2))
        ((0 : Nat), g)
  (added.1, GraphService.recalculateTreeLayout added.2)

/-- A proposed node of an LLM delta (`parsedData.nodes` entries), restricted
to the fields the node loop reads. -/
structure ProposedNode where
  label : String
  category : Option String
deriving DecidableEq, Repr

/-- The node loop of the `process-transcript` handler (`server.ts` lines
171–210).  `currentGraph` is `graphService.getGraph()`, which returns the
live graph object (part_010 lines 459–461), and `addNode` pushes into the
same `nodes` array — so each candidate's duplicate check sees the nodes
accepted earlier in the same delta, which the fold models by threading the
accumulator graph through `isDuplicate`. -/
def processTranscriptNodes (g : Graph) (proposed : List ProposedNode)
    (idSupply : Nat → String) : Graph :=
  (proposed.foldl
    (fun acc node =>
      if isDuplicate node.label acc.2.nodes then acc
      else
        let r := GraphService.addNode acc.2
          { label := node.label, category := node.category.getD "service"
            position := none, importance := none } (idSupply acc.1)
        (acc.1 + 1, r.2))
    ((0 : Nat), g)).2

end Server

namespace KG

/-- Direct successors of a node along directed edges (property-statement
helper, used to express that a graph has no directed cycle). -/
def successors (edges : List Edge) (n : String) : List String :=
  (edges.filter (fun e => decide (e.source = n))).map Edge.target

/-- One breadth step of the reachability closure. -/
def reachStep (edges : List Edge) (acc : List String) : List String :=
  acc ++ ((acc.flatMap (successors edges)).filter (fun x => decide (x ∉ acc)))

/-- Iterated reachability closure with explicit fuel. -/
def reachAux (edges : List Edge) : Nat → List String → List String
  | 0, acc => acc
  | f + 1, acc => reachAux edges f (reachStep edges acc)

/-- Nodes reachable from `n` in at least one step.  `2 * edges.length + 2`
closure rounds saturate: the graph has at most `2 * edges.length` node ids,
so every reachable node is reached within that many steps. -/
def reachableFrom (edges : List Edge) (n : String) : List String :=
  reachAux edges (2 * edges.length + 2) (successors edges n)

/-- Every node id mentioned by some edge. -/
def nodeIdsOf (edges : List Edge) : List String :=
  (edges.map Edge.source ++ edges.map Edge.target).dedup

/-- Whether the edge list contains a directed cycle: some mentioned node
reaches itself in at least one step. -/
def hasCycle (edges : List Edge) : Bool :=
  (nodeIdsOf edges).any (fun n => decide (n ∈ reachableFrom edges n))

end KG

namespace KG

/-- A test edge between the given node ids (fields that do not matter to
the statements get defaults). -/
def mkE (s t : String) : Edge :=
  { id := "e-" ++ s ++ "-" ++ t, source := s, target := t, label := none
    relationship := none, type := "smoothstep", animated := false }

/-- A test edge carrying a `relationship` string, as the `process-transcript`
handler creates them. -/
def mkER (s t rel : String) : Edge :=
  { id := "e-" ++ s ++ "-" ++ t, source := s, target := t, label := none
    relationship := some rel, type := "smoothstep", animated := false }

/-- Acyclic test graph for the depth claims: a chain `r → s → t → z` and a
diamond `z → p1 → c`, `z → y → p2 → c` sharing the deep ancestor `z`. -/
def exE : List Edge :=
  [mkE "r" "s", mkE "s" "t", mkE "t" "z", mkE "z" "p1", mkE "p1" "c",
   mkE "z" "y", mkE "y" "p2", mkE "p2" "c"]

end KG

namespace KG

/-- A test node with a chosen id (label = id). -/
def mkIdNode (i : String) : Node :=
  { id := i, label := i, category := "service"
    importance := NodeImportance.small, position := { x := 0, y := 0 } }

/-- Test graph for the finalize fallback: hub candidate `A` with three
connections, plus the isolated node `E`. -/
def exG3 : Graph :=
  { nodes := [mkIdNode "A", mkIdNode "B", mkIdNode "C", mkIdNode "D", mkIdNode "E"]
    edges := [mkE "A" "B", mkE "A" "C", mkE "A" "D"] }

/-- Test graph for the merge claims: the spec's example `A→B, B→C, B→D`
with a semantic `relationship` on every edge, as `server.ts` creates them. -/
def exG7 : Graph :=
  { nodes := [mkIdNode "A", mkIdNode "B", mkIdNode "C", mkIdNode "D"]
    edges := [mkER "A" "B" "supports", mkER "B" "C" "supports", mkER "B" "D" "supports"] }

/-- The id-independent content of an edge: endpoints, `label` and
`relationship` (edge ids are nondeterministic, so merge results are
compared through this key). -/
def edgeKey (e : Edge) : String × String × Option String × Option String :=
  (e.source, e.target, e.label, e.relationship)

/-- The key of the edge that `mergeNodes` re-creates for a pre-existing
edge with exactly one endpoint in the merged set (the other endpoint is
kept, the merged endpoint becomes the new node, `label` is carried over,
`relationship` is reset to `undefined` by the positional `addEdge` call);
`none` for internal and external-external edges, which are not
re-created. -/
def transferKey (nodeIds : List String) (newId : String) (e : Edge) :
    Option (String × String × Option String × Option String) :=
  if e.source ∈ nodeIds ∧ e.target ∉ nodeIds then some (newId, e.target, e.label, none)
  else if e.source ∉ nodeIds ∧ e.target ∈ nodeIds then some (e.source, newId, e.label, none)
  else none

end KG

/-! ## Theorems -/

section Claims

open KG Server GraphService

/-- The similarity comparison, unfolded to an exact arithmetic condition:
the JS `common/min > 0.6` holds iff the minimum is positive and
`5 * common > 3 * min` (when the minimum is zero the common count is also
zero and the `NaN` comparison is false). -/
lemma jsRatioGT06_filter_iff (ew nw : List String) :
    jsRatioGT06 (ew.filter (fun w => nw.contains w)).length (min ew.length nw.length) = true ↔
      (0 < min ew.length nw.length ∧
       3 * min ew.length nw.length < 5 * (ew.filter (fun w => nw.contains w)).length) := by
  unfold jsRatioGT06
  rcases Nat.eq_zero_or_pos (min ew.length nw.length) with h0 | hpos
  · have hc : (ew.filter (fun w => nw.contains w)).length = 0 := by
      rcases Nat.min_eq_zero_iff.mp h0 with he | hn
      · exact Nat.le_zero.mp (le_trans (List.length_filter_le _ _) (Nat.le_of_eq he))
      · have : nw = [] := List.length_eq_zero.mp hn
        subst this
        simp [List.contains]
    rw [h0, hc]
    simp
  · rw [if_neg (Nat.pos_iff_ne_zero.mp hpos)]
    simp [hpos]

/-- Per-label unfolding of the duplicate predicate into exact arithmetic. -/
lemma isDuplicateLabel_eq_true_iff (a b : String) :
    isDuplicateLabel a b = true ↔
      (jsToLower a = jsToLower b ∨
        (0 < min (qualifyingTokens a).length (qualifyingTokens b).length ∧
         3 * min (qualifyingTokens a).length (qualifyingTokens b).length <
           5 * ((qualifyingTokens a).filter
                 (fun w => (qualifyingTokens b).contains w)).length)) := by
  by_cases h : jsToLower a = jsToLower b
  · simp [isDuplicateLabel, h]
  · simp only [isDuplicateLabel, if_neg h]
    rw [show ((jsSplitWs (jsToLower a)).filter (fun w => w.length > 3)) = qualifyingTokens a from rfl]
    rw [show ((jsSplitWs (jsToLower b)).filter (fun w => w.length > 3)) = qualifyingTokens b from rfl]
    rw [jsRatioGT06_filter_iff (qualifyingTokens a) (qualifyingTokens b)]
    simp [h]

/-- C1.  Corrected.  The claim's reading of the overlap as a *set*
intersection of the two token sets is refuted: the code computes
`existingWords.filter(w => newWords.includes(w))`, which counts repeated
tokens of the existing label with multiplicity, and divides by the minimum
of the token *list* lengths.  At candidate `"aaaa cccc dddd"` against the
single existing label `"aaaa aaaa bbbb"` the code reports a duplicate
(overlap 2/3 > 0.6) while the claim's set formula gives 1/2 ≤ 0.6 and no
exact match, so the claimed equivalence is false at this input. -/
theorem C1_counterexample :
    isDuplicate "aaaa cccc dddd" [mkTestNode "aaaa aaaa bbbb"] = true ∧
    specIsDuplicate "aaaa cccc dddd" [mkTestNode "aaaa aaaa bbbb"] = false :=
  ⟨by decide, by decide⟩

/-- C1, amended: the duplicate test returns true exactly when some existing
label matches case-insensitively, or the count of existing-label tokens
(length > 3, with multiplicity) that occur among the candidate's tokens,
divided by the minimum of the two token-list lengths, exceeds 0.6 — the
division-by-zero case counting as non-duplicate. -/
theorem C1_amended (newLabel : String) (nodes : List Node) :
    isDuplicate newLabel nodes = true ↔
      ∃ n ∈ nodes,
        (jsToLower n.label = jsToLower newLabel ∨
          (0 < min (qualifyingTokens n.label).length (qualifyingTokens newLabel).length ∧
           3 * min (qualifyingTokens n.label).length (qualifyingTokens newLabel).length <
             5 * ((qualifyingTokens n.label).filter
                   (fun w => (qualifyingTokens newLabel).contains w)).length)) := by
  unfold isDuplicate
  rw [List.any_eq_true]
  exact exists_congr fun n =>
    and_congr_right fun _ => isDuplicateLabel_eq_true_iff n.label newLabel

/-- Witness for C1's amended theorem at a concrete duplicate pair. -/
theorem C1_amended_witness :
    isDuplicate "aaaa bbbb" [mkTestNode "aaaa bbbb cccc"] = true :=
  (C1_amended "aaaa bbbb" [mkTestNode "aaaa bbbb cccc"]).mpr
    ⟨mkTestNode "aaaa bbbb cccc", by decide, Or.inr (by decide)⟩

/-- C2.  Confirmed.  If either label has no qualifying token (length > 3
after whitespace splitting), the similarity branch evaluates `0/0` — the
JS `NaN > 0.6` comparison is false — so the pair is classified by the exact
case-insensitive comparison alone; lifted over a node list when the
candidate has no qualifying token. -/
theorem C2_zero_token_guard (a b : String) (nodes : List Node) :
    (qualifyingTokens a = [] ∨ qualifyingTokens b = [] →
       isDuplicateLabel a b = decide (jsToLower a = jsToLower b)) ∧
    (qualifyingTokens b = [] →
       isDuplicate b nodes = nodes.any (fun n => decide (jsToLower n.label = jsToLower b))) := by
  have key : ∀ x y : String, qualifyingTokens x = [] ∨ qualifyingTokens y = [] →
      isDuplicateLabel x y = decide (jsToLower x = jsToLower y) := by
    intro x y h
    unfold isDuplicateLabel
    by_cases heq : jsToLower x = jsToLower y
    · simp [heq]
    · rw [if_neg heq]
      have hzero :
          ((jsSplitWs (jsToLower x)).filter (fun w => w.length > 3)).length = 0 ∨
          ((jsSplitWs (jsToLower y)).filter (fun w => w.length > 3)).length = 0 := by
        rcases h with h | h
        · exact Or.inl (by rw [show ((jsSplitWs (jsToLower x)).filter (fun w => w.length > 3)) = qualifyingTokens x from rfl, h]; rfl)
        · exact Or.inr (by rw [show ((jsSplitWs (jsToLower y)).filter (fun w => w.length > 3)) = qualifyingTokens y from rfl, h]; rfl)
      rcases hzero with hz | hz
      · have hnil : (jsSplitWs (jsToLower x)).filter (fun w => w.length > 3) = [] :=
          List.length_eq_zero.mp hz
        rw [hnil]
        simp [jsRatioGT06, heq]
      · have hnil : (jsSplitWs (jsToLower y)).filter (fun w => w.length > 3) = [] :=
          List.length_eq_zero.mp hz
        rw [hnil]
        simp [jsRatioGT06, List.contains, heq]
  refine ⟨key a b, fun hb => ?_⟩
  unfold isDuplicate
  induction nodes with
  | nil => rfl
  | cons n rest ih =>
      simp only [List.any_cons, ih]
      rw [key n.label b (Or.inr hb)]

/-- Witness for C2 at concrete labels with no qualifying tokens. -/
theorem C2_zero_token_guard_witness :
    isDuplicateLabel "abcd efgh" "no" = false ∧
    isDuplicate "ok" [mkTestNode "abcd efgh"] = false := by
  constructor
  · have h := (C2_zero_token_guard "abcd efgh" "no" []).1 (Or.inr (by decide))
    exact h.trans (by decide)
  · have h := (C2_zero_token_guard "x" "ok" [mkTestNode "abcd efgh"]).2 (by decide)
    exact h.trans (by decide)

/-- C4.  Confirmed.  `removeNode` cascades: when the node id is present,
it returns true and no edge of the resulting graph has the removed id as
source or target; when absent it returns false and leaves the graph
untouched. -/
theorem C4_removeNode_cascade (g : Graph) (nodeId : String) :
    ((∃ n ∈ g.nodes, n.id = nodeId) →
       (GraphService.removeNode g nodeId).1 = true ∧
       ∀ e ∈ (GraphService.removeNode g nodeId).2.edges, e.source ≠ nodeId ∧ e.target ≠ nodeId) ∧
    ((¬ ∃ n ∈ g.nodes, n.id = nodeId) → GraphService.removeNode g nodeId = (false, g)) := by
  constructor
  · rintro ⟨n, hn, hid⟩
    have hfind : g.nodes.findIdx? (fun node => node.id = nodeId) ≠ none := by
      intro hnone
      rw [List.findIdx?_eq_none_iff] at hnone
      have := hnone n hn
      simp [hid] at this
    rcases hsome : g.nodes.findIdx? (fun node => node.id = nodeId) with _ | i
    · exact absurd hsome hfind
    · constructor
      · simp [GraphService.removeNode, hsome]
      · intro e he
        simp only [GraphService.removeNode, hsome] at he
        have := (List.mem_filter.mp he).2
        simpa using this
  · intro habs
    have hnone : g.nodes.findIdx? (fun node => node.id = nodeId) = none := by
      rw [List.findIdx?_eq_none_iff]
      intro x hx
      simp only [decide_eq_false_iff_not]
      exact fun hxe => habs ⟨x, hx, hxe⟩
    simp [GraphService.removeNode, hnone]

/-- Witness for C4 on a concrete two-node graph. -/
theorem C4_removeNode_cascade_witness :
    ((GraphService.removeNode
        { nodes := [mkTestNode "a", mkTestNode "b"], edges := [mkE "n1" "n1"] } "n1").1 = true ∧
     ∀ e ∈ (GraphService.removeNode
        { nodes := [mkTestNode "a", mkTestNode "b"], edges := [mkE "n1" "n1"] } "n1").2.edges,
        e.source ≠ "n1" ∧ e.target ≠ "n1") ∧
    GraphService.removeNode { nodes := [mkTestNode "a"], edges := [] } "zz" =
      (false, { nodes := [mkTestNode "a"], edges := [] }) := by
  constructor
  · exact (C4_removeNode_cascade
      { nodes := [mkTestNode "a", mkTestNode "b"], edges := [mkE "n1" "n1"] } "n1").1
      ⟨mkTestNode "a", by decide, by decide⟩
  · exact (C4_removeNode_cascade { nodes := [mkTestNode "a"], edges := [] } "zz").2
      (by decide)

/-- Lists concatenated around a separator character that occurs in neither
left part determine the parts uniquely. -/
lemma append_sep_inj : ∀ (a c b d : List Char), '-' ∉ a → '-' ∉ c →
    a ++ '-' :: b = c ++ '-' :: d → a = c ∧ b = d := by
  intro a
  induction a with
  | nil =>
      intro c b d _ hc h
      cases c with
      | nil => simpa using h
      | cons x xs =>
          simp only [List.nil_append, List.cons_append, List.cons.injEq] at h
          exact absurd (h.1 ▸ List.mem_cons_self x xs) hc
  | cons y ys ih =>
      intro c b d ha hc h
      cases c with
      | nil =>
          simp only [List.cons_append, List.nil_append, List.cons.injEq] at h
          exact absurd (h.1.symm ▸ List.mem_cons_self y ys) ha
      | cons x xs =>
          simp only [List.cons_append, List.cons.injEq] at h
          obtain ⟨hyx, hrest⟩ := h
          have hr := ih xs b d (fun hm => ha (List.mem_cons_of_mem y hm))
            (fun hm => hc (List.mem_cons_of_mem x hm)) hrest
          exact ⟨by rw [hyx, hr.1], hr.2⟩

/-- C10.  Corrected.  In `services/graph.service.ts`, `addEdge` builds the
id deterministically as `e-<source>-<target>`: two calls with the same
source and target produce the same id, so the edge collection is not
unique-by-id, refuting the claim as stated.  (The part_010 variant appends
`Date.now()` and a random base-36 suffix, which makes collisions
improbable but not impossible.) -/
theorem C10_counterexample :
    ((GraphServiceSimple.addEdge
        (GraphServiceSimple.addEdge [] "a" "b" none).2 "a" "b" none).2).map
        GraphServiceSimple.EdgeS.id = ["e-a-b", "e-a-b"] ∧
    ¬ (((GraphServiceSimple.addEdge
        (GraphServiceSimple.addEdge [] "a" "b" none).2 "a" "b" none).2).map
        GraphServiceSimple.EdgeS.id).Nodup := by
  exact ⟨rfl, by decide⟩

/-- C10, amended: `addEdge` appends an edge whose id is the concatenation
`e-<source>-<target>`; consequently ids are unique exactly as long as no
(source, target) pair (up to this string encoding) repeats — for
hyphen-free sources, two such ids coincide iff both components coincide. -/
theorem C10_amended (edges : List GraphServiceSimple.EdgeS) (s t : String) (l : Option String) :
    ((GraphServiceSimple.addEdge edges s t l).1.id = "e-" ++ s ++ "-" ++ t ∧
     (GraphServiceSimple.addEdge edges s t l).2 =
       edges ++ [(GraphServiceSimple.addEdge edges s t l).1]) ∧
    ∀ s2 t2 : String, '-' ∉ s.data → '-' ∉ s2.data →
      ("e-" ++ s ++ "-" ++ t = "e-" ++ s2 ++ "-" ++ t2 ↔ (s = s2 ∧ t = t2)) := by
  refine ⟨⟨rfl, rfl⟩, fun s2 t2 hs hs2 => ?_⟩
  constructor
  · intro h
    rw [String.ext_iff] at h
    simp only [String.data_append] at h
    have h2 : s.data ++ '-' :: t.data = s2.data ++ '-' :: t2.data := by
      have hx : ("e-" : String).data ++ (s.data ++ ('-' :: t.data)) =
             ("e-" : String).data ++ (s2.data ++ ('-' :: t2.data)) := by
        simpa [List.append_assoc, show ("-" : String).data = ['-'] from rfl] using h
      exact List.append_cancel_left hx
    have hr := append_sep_inj s.data s2.data t.data t2.data hs hs2 h2
    exact ⟨String.ext_iff.mpr hr.1, String.ext_iff.mpr hr.2⟩
  · rintro ⟨rfl, rfl⟩
    rfl

/-- Witness for C10's amended theorem at concrete hyphen-free components. -/
theorem C10_amended_witness :
    ("e-" ++ "a" ++ "-" ++ "b" = "e-" ++ "a" ++ "-" ++ "c" ↔ ("a" = "a" ∧ "b" = "c")) :=
  ((C10_amended [] "a" "b" none).2 "a" "c" (by decide) (by decide))

/-- C8.  Corrected.  The claim (and spec) says candidates of one delta are
deduplicated only against the nodes committed before the delta began, so
two identical new nodes in one delta would both be inserted.  But
`getGraph()` returns the live graph object and `addNode` pushes into the
same array, so each candidate is checked against the nodes accepted
earlier in the same delta: submitting the same label twice against an
empty committed graph inserts only one node, not two. -/
theorem C8_counterexample :
    Server.isDuplicate "duplicate label here" KG.emptyGraph.nodes = false ∧
    (Server.processTranscriptNodes KG.emptyGraph
      [{ label := "duplicate label here", category := none },
       { label := "duplicate label here", category := none }] (fun _ => "x")).nodes.length = 1 := by
  exact ⟨rfl, by decide⟩

/-- C8, amended: the duplicate check runs against the live node collection,
which includes nodes accepted earlier in the same delta — a second
candidate matching the first case-insensitively is skipped even when the
committed state would not have filtered it. -/
theorem C8_amended (g : Graph) (c1 c2 : ProposedNode) (sup : Nat → String)
    (h1 : isDuplicate c1.label g.nodes = false)
    (h2 : jsToLower c2.label = jsToLower c1.label) :
    (processTranscriptNodes g [c1, c2] sup).nodes.length = g.nodes.length + 1 := by
  have hdup2 : isDuplicateLabel c1.label c2.label = true := by
    unfold isDuplicateLabel
    rw [if_pos h2.symm]
  unfold processTranscriptNodes
  simp only [List.foldl_cons, List.foldl_nil, h1, Bool.false_eq_true, if_false]
  have hcond : isDuplicate c2.label
      ((GraphService.addNode g
        { label := c1.label, category := c1.category.getD "service"
          position := none, importance := none } (sup 0)).2).nodes = true := by
    simp only [GraphService.addNode, isDuplicate, List.any_append, List.any_cons, List.any_nil,
      hdup2, Bool.or_true, Bool.true_or, Bool.or_false]
  simp only [hcond, if_true]
  simp [GraphService.addNode]

/-- Witness for C8's amended theorem at a concrete pair of same-delta
candidates differing only in case. -/
theorem C8_amended_witness :
    (Server.processTranscriptNodes KG.emptyGraph
      [{ label := "User Math", category := none },
       { label := "USER MATH", category := none }] (fun _ => "y")).nodes.length =
      KG.emptyGraph.nodes.length + 1 :=
  C8_amended KG.emptyGraph { label := "User Math", category := none }
    { label := "USER MATH", category := none } (fun _ => "y") rfl (by decide)

/-- Unfolding equation for zero fuel. -/
lemma calcDepth_zero (edges : List Edge) (v : List String) (n : String) :
    calcDepth edges 0 v n = (0, v) := rfl

/-- Unfolding equation for positive fuel, phrased through `calcDepthParents`. -/
lemma calcDepth_succ_eq (edges : List Edge) (fuel : Nat) (v : List String) (n : String) :
    calcDepth edges (fuel + 1) v n =
      if n ∈ v then (0, v)
      else if (edges.filter (fun edge => decide (edge.target = n))).isEmpty then (0, v ++ [n])
      else
        (min (jsMaxList (calcDepthParents edges fuel (v ++ [n])
            (edges.filter (fun edge => decide (edge.target = n)))).1 + 1) MAX_TREE_DEPTH,
         (calcDepthParents edges fuel (v ++ [n])
            (edges.filter (fun edge => decide (edge.target = n)))).2) := rfl

lemma calcDepthParents_nil (edges : List Edge) (fuel : Nat) (v : List String) :
    calcDepthParents edges fuel v [] = ([], v) := rfl

/-- Shifting the depth accumulator out of the parents fold. -/
lemma calcDepthParents_shift (edges : List Edge) (fuel : Nat) :
    ∀ (l : List Edge) (acc : List Nat) (v : List String),
      l.foldl (fun acc edge =>
          let d := calcDepth edges fuel acc.2 edge.source
          (acc.1 ++ [d.1], d.2)) (acc, v) =
        (acc ++ (calcDepthParents edges fuel v l).1, (calcDepthParents edges fuel v l).2) := by
  intro l
  induction l with
  | nil => intro acc v; simp [calcDepthParents]
  | cons e rest ih =>
      intro acc v
      simp only [List.foldl_cons]
      rw [ih]
      conv_rhs => rw [show calcDepthParents edges fuel v (e :: rest) =
        List.foldl (fun acc edge =>
          let d := calcDepth edges fuel acc.2 edge.source
          (acc.1 ++ [d.1], d.2))
          (([] : List Nat) ++ [(calcDepth edges fuel v e.source).1],
            (calcDepth edges fuel v e.source).2) rest from rfl]
      rw [ih]
      simp

/-- Recursion equation for the parents fold. -/
lemma calcDepthParents_cons (edges : List Edge) (fuel : Nat) (v : List String)
    (e : Edge) (rest : List Edge) :
    calcDepthParents edges fuel v (e :: rest) =
      ((calcDepth edges fuel v e.source).1 ::
         (calcDepthParents edges fuel (calcDepth edges fuel v e.source).2 rest).1,
       (calcDepthParents edges fuel (calcDepth edges fuel v e.source).2 rest).2) := by
  rw [show calcDepthParents edges fuel v (e :: rest) =
    List.foldl (fun acc edge =>
      let d := calcDepth edges fuel acc.2 edge.source
      (acc.1 ++ [d.1], d.2))
      (([] : List Nat) ++ [(calcDepth edges fuel v e.source).1],
        (calcDepth edges fuel v e.source).2) rest from rfl]
  rw [calcDepthParents_shift]
  simp

/-- The shared visited set only grows. -/
lemma visited_grow (edges : List Edge) : ∀ fuel : Nat,
    (∀ (v : List String) (n : String), v ⊆ (calcDepth edges fuel v n).2) ∧
    (∀ (l : List Edge) (v : List String), v ⊆ (calcDepthParents edges fuel v l).2) := by
  intro fuel
  induction fuel with
  | zero =>
      refine ⟨fun v n => by simp [calcDepth_zero], fun l => ?_⟩
      induction l with
      | nil => intro v; simp [calcDepthParents_nil]
      | cons e rest ih =>
          intro v
          rw [calcDepthParents_cons]
          simpa [calcDepth_zero] using ih v
  | succ fuel ih =>
      have main : ∀ (v : List String) (n : String), v ⊆ (calcDepth edges (fuel + 1) v n).2 := by
        intro v n
        rw [calcDepth_succ_eq]
        by_cases hm : n ∈ v
        · simp [hm]
        · rw [if_neg hm]
          by_cases hp : (edges.filter (fun edge => decide (edge.target = n))).isEmpty
          · simp [hp, List.subset_append_left]
          · rw [if_neg hp]
            exact (List.subset_append_left v [n]).trans (ih.2 _ (v ++ [n]))
      refine ⟨main, fun l => ?_⟩
      induction l with
      | nil => intro v; simp [calcDepthParents_nil]
      | cons e rest ihl =>
          intro v
          rw [calcDepthParents_cons]
          exact (main v e.source).trans (ihl _)

/-- Count of distinct edge sources not yet visited — the termination measure
of the depth recursion. -/
def unvisitedCount (edges : List Edge) (v : List String) : Nat :=
  ((edges.map Edge.source).toFinset \ v.toFinset).card

/-- Growing the visited set cannot increase the measure. -/
lemma unvisitedCount_anti (edges : List Edge) {v w : List String} (h : v ⊆ w) :
    unvisitedCount edges w ≤ unvisitedCount edges v := by
  apply Finset.card_le_card
  apply Finset.sdiff_subset_sdiff (Finset.Subset.refl _)
  intro x hx
  exact List.mem_toFinset.mpr (h (List.mem_toFinset.mp hx))

/-- Visiting an unvisited edge source decreases the measure by exactly one. -/
lemma unvisitedCount_append_mem (edges : List Edge) {v : List String} {n : String}
    (hn : n ∈ edges.map Edge.source) (hnv : n ∉ v) :
    unvisitedCount edges (v ++ [n]) + 1 = unvisitedCount edges v := by
  unfold unvisitedCount
  have h1 : (v ++ [n]).toFinset = insert n v.toFinset := by
    rw [List.toFinset_append]
    simp [Finset.union_comm, Finset.insert_eq]
  have hmem : n ∈ (edges.map Edge.source).toFinset \ v.toFinset :=
    Finset.mem_sdiff.mpr ⟨List.mem_toFinset.mpr hn, fun hc => hnv (List.mem_toFinset.mp hc)⟩
  rw [h1, Finset.sdiff_insert, Finset.card_erase_of_mem hmem]
  have := Finset.card_pos.mpr ⟨n, hmem⟩
  omega

/-- The initial measure is at most the number of edges. -/
lemma unvisitedCount_le (edges : List Edge) : unvisitedCount edges [] ≤ edges.length := by
  unfold unvisitedCount
  simp only [List.toFinset_nil, Finset.sdiff_empty]
  exact le_trans (List.toFinset_card_le _) (le_of_eq (List.length_map _ _))

/-- One fuel step never changes the result once the fuel exceeds the
unvisited-source measure (by one for edge sources, by two in general):
this is the sense in which the JS recursion terminates on every graph,
cyclic ones included. -/
lemma calcDepth_fuel_succ (edges : List Edge) : ∀ (fuel : Nat) (v : List String) (n : String),
    ((n ∈ edges.map Edge.source ∧ unvisitedCount edges v + 1 ≤ fuel) ∨
       unvisitedCount edges v + 2 ≤ fuel) →
    calcDepth edges fuel v n = calcDepth edges (fuel + 1) v n := by
  intro fuel
  induction fuel with
  | zero => intro v n h; rcases h with ⟨_, h⟩ | h <;> omega
  | succ fuel ih =>
      intro v n h
      rw [calcDepth_succ_eq edges fuel, calcDepth_succ_eq edges (fuel + 1)]
      by_cases hm : n ∈ v
      · simp [hm]
      · rw [if_neg hm, if_neg hm]
        by_cases hp : (edges.filter (fun edge => decide (edge.target = n))).isEmpty
        · rw [if_pos hp, if_pos hp]
        · rw [if_neg hp, if_neg hp]
          have hbound : unvisitedCount edges (v ++ [n]) + 1 ≤ fuel := by
            rcases h with ⟨hns, hb⟩ | hb
            · have := unvisitedCount_append_mem edges hns hm; omega
            · have := unvisitedCount_anti edges (List.subset_append_left v [n]); omega
          have hfold : ∀ (l : List Edge), (∀ e ∈ l, e.source ∈ edges.map Edge.source) →
              ∀ (w : List String), unvisitedCount edges w ≤ unvisitedCount edges (v ++ [n]) →
              calcDepthParents edges fuel w l = calcDepthParents edges (fuel + 1) w l := by
            intro l
            induction l with
            | nil => intro _ w _; rw [calcDepthParents_nil, calcDepthParents_nil]
            | cons e rest ihl =>
                intro hl w hw
                rw [calcDepthParents_cons, calcDepthParents_cons]
                have hhead : calcDepth edges fuel w e.source =
                    calcDepth edges (fuel + 1) w e.source := by
                  apply ih
                  exact Or.inl ⟨hl e (List.mem_cons_self e rest), by omega⟩
                rw [← hhead]
                have hw2 : unvisitedCount edges (calcDepth edges fuel w e.source).2 ≤
                    unvisitedCount edges (v ++ [n]) :=
                  le_trans (unvisitedCount_anti edges ((visited_grow edges fuel).1 w e.source)) hw
                rw [ihl (fun e2 he2 => hl e2 (List.mem_cons_of_mem e he2)) _ hw2]
          have hsrc : ∀ e ∈ edges.filter (fun edge => decide (edge.target = n)),
              e.source ∈ edges.map Edge.source := by
            intro e he
            exact List.mem_map_of_mem _ (List.mem_of_mem_filter he)
          rw [hfold _ hsrc (v ++ [n]) (le_refl _)]

/-- Fuel-independence of the top-level depth value beyond `edges.length + 2`. -/
lemma calcDepth_fuel_stable (edges : List Edge) (n : String) :
    ∀ fuel : Nat, edges.length + 2 ≤ fuel →
      calcDepth edges fuel [] n = calcDepth edges (edges.length + 2) [] n := by
  have hstep : ∀ k : Nat,
      calcDepth edges (edges.length + 2 + k) [] n = calcDepth edges (edges.length + 2) [] n := by
    intro k
    induction k with
    | zero => rfl
    | succ k ih =>
        have h := calcDepth_fuel_succ edges (edges.length + 2 + k) [] n
          (Or.inr (by have := unvisitedCount_le edges; omega))
        exact h.symm.trans ih
  intro fuel hf
  have heq : fuel = edges.length + 2 + (fuel - (edges.length + 2)) := by omega
  rw [heq, hstep]

/-- `Math.max` over the accumulated list bounds its initial value. -/
lemma foldl_max_init (l : List Nat) : ∀ a : Nat, a ≤ l.foldl max a := by
  induction l with
  | nil => intro a; exact le_refl a
  | cons b rest ih =>
      intro a
      exact le_trans (Nat.le_max_left a b) (ih (max a b))

/-- `Math.max` over a list bounds each member. -/
lemma foldl_max_mem (l : List Nat) : ∀ (a d : Nat), d ∈ l → d ≤ l.foldl max a := by
  induction l with
  | nil => intro a d h; cases h
  | cons b rest ih =>
      intro a d h
      rcases List.mem_cons.mp h with rfl | h
      · exact le_trans (Nat.le_max_right a d) (foldl_max_init rest (max a d))
      · exact ih (max a b) d h

/-- The parents fold produces one depth contribution per parent edge. -/
lemma calcDepthParents_length (edges : List Edge) (fuel : Nat) :
    ∀ (l : List Edge) (v : List String),
      (calcDepthParents edges fuel v l).1.length = l.length := by
  intro l
  induction l with
  | nil => intro v; rfl
  | cons e rest ih =>
      intro v
      rw [calcDepthParents_cons]
      simp [ih]

/-- C5.  Confirmed.  The depth function returns 0 for a node with no
incoming edges; for a node with incoming edges it returns 1 plus the
maximum of its parents' depth contributions, clamped at
`MAX_TREE_DEPTH = 6`; a node already in the visited set contributes 0; and
the fuel making the embedded recursion structural never influences the
value from `edges.length + 2` on, which is the formal content of
termination on arbitrary (including cyclic) graphs. -/
theorem C5_depth_calculator (edges : List Edge) (n : String) :
    (parentEdgesOf edges n = [] → calculateNodeDepth edges n = 0) ∧
    (parentEdgesOf edges n ≠ [] →
       calculateNodeDepth edges n =
         min (jsMaxList (calcDepthParents edges (edges.length + 1) [n]
                (parentEdgesOf edges n)).1 + 1) MAX_TREE_DEPTH) ∧
    calculateNodeDepth edges n ≤ MAX_TREE_DEPTH ∧
    (∀ (fuel : Nat) (visited : List String) (m : String), m ∈ visited →
       calcDepth edges fuel visited m = (0, visited)) ∧
    (∀ fuel : Nat, edges.length + 2 ≤ fuel →
       calcDepth edges fuel [] n = calcDepth edges (edges.length + 2) [] n) := by
  have hunfold : calculateNodeDepth edges n = (calcDepth edges (edges.length + 1 + 1) [] n).1 := rfl
  refine ⟨?_, ?_, ?_, ?_, calcDepth_fuel_stable edges n⟩
  · intro hp
    rw [hunfold, calcDepth_succ_eq]
    have hempty : (edges.filter (fun edge => decide (edge.target = n))).isEmpty := by
      rw [show edges.filter (fun edge => decide (edge.target = n)) = parentEdgesOf edges n from rfl,
        hp]
      rfl
    simp [hempty]
  · intro hp
    rw [hunfold, calcDepth_succ_eq]
    have hne : ¬ (edges.filter (fun edge => decide (edge.target = n))).isEmpty = true := by
      rw [show edges.filter (fun edge => decide (edge.target = n)) = parentEdgesOf edges n from rfl]
      cases hcase : parentEdgesOf edges n with
      | nil => exact absurd hcase hp
      | cons a b => simp
    rw [if_neg (by simp), if_neg hne]
    rfl
  · rw [hunfold, calcDepth_succ_eq]
    by_cases hm : n ∈ ([] : List String)
    · cases hm
    · rw [if_neg hm]
      by_cases hp : (edges.filter (fun edge => decide (edge.target = n))).isEmpty
      · rw [if_pos hp]
        exact Nat.zero_le _
      · rw [if_neg hp]
        exact Nat.min_le_right _ _
  · intro fuel visited m hm
    cases fuel with
    | zero => rfl
    | succ fuel => rw [calcDepth_succ_eq, if_pos hm]

/-- Witness for C5 on the concrete test graph. -/
theorem C5_depth_calculator_witness :
    calculateNodeDepth exE "r" = 0 ∧
    calculateNodeDepth exE "c" =
      min (jsMaxList (calcDepthParents exE (exE.length + 1) ["c"]
            (parentEdgesOf exE "c")).1 + 1) MAX_TREE_DEPTH ∧
    calcDepth exE 3 ["q"] "q" = (0, ["q"]) ∧
    calcDepth exE 11 [] "c" = calcDepth exE (exE.length + 2) [] "c" := by
  have hc := C5_depth_calculator exE "c"
  have hr := C5_depth_calculator exE "r"
  exact ⟨hr.1 (by decide), hc.2.1 (by decide), hc.2.2.2.1 3 ["q"] "q" (by decide),
    hc.2.2.2.2 11 (by decide)⟩

/-- C6.  Corrected.  On the acyclic graph `exE` (a chain `r→s→t→z` feeding
a diamond `z→p1→c` and `z→y→p2→c`), the first parent branch of `c` visits
the whole ancestry of `z`, so the second branch's walk from `p2` is cut off
at the shared (already visited) ancestor `z`: `depth(c) = 5` while
`depth(p2) = 5`, so `depth(c) < depth(p2) + 1` although no depth was
clamped (5 < 6) and the graph has no cycle at all — the claim's two
exceptions do not cover shared-ancestor visited-set pollution. -/
theorem C6_counterexample :
    hasCycle exE = false ∧
    (mkE "p2" "c") ∈ exE ∧
    calculateNodeDepth exE "c" = 5 ∧
    calculateNodeDepth exE "p2" = 5 ∧
    calculateNodeDepth exE "c" < MAX_TREE_DEPTH ∧
    calculateNodeDepth exE "c" < calculateNodeDepth exE "p2" + 1 := by
  refine ⟨by decide, by decide, by decide, by decide, by decide, by decide⟩

/-- C6, amended: for every edge `p → c` (the `k`-th parent edge of `c`),
either `depth(c)` is clamped at `MAX_TREE_DEPTH = 6`, or `depth(c)` is at
least one more than the depth contribution computed for `p` *during `c`'s
traversal* — that contribution equals `depth(p)` only when the traversal
revisits no node, and can be smaller on cycles or when parents share an
ancestor explored by an earlier branch. -/
theorem C6_amended (edges : List Edge) (c : String) (k : Nat)
    (hk : k < (parentEdgesOf edges c).length) :
    calculateNodeDepth edges c = MAX_TREE_DEPTH ∨
    (calcDepthParents edges (edges.length + 1) [c] (parentEdgesOf edges c)).1.getD k 0 + 1 ≤
      calculateNodeDepth edges c := by
  have hne : parentEdgesOf edges c ≠ [] := by
    intro h
    rw [h] at hk
    exact absurd hk (by simp)
  have hunfold : calculateNodeDepth edges c = (calcDepth edges (edges.length + 1 + 1) [] c).1 := rfl
  have heq : calculateNodeDepth edges c =
      min (jsMaxList (calcDepthParents edges (edges.length + 1) [c]
            (parentEdgesOf edges c)).1 + 1) MAX_TREE_DEPTH := by
    rw [hunfold, calcDepth_succ_eq]
    have hnb : ¬ (edges.filter (fun edge => decide (edge.target = c))).isEmpty = true := by
      rw [show edges.filter (fun edge => decide (edge.target = c)) = parentEdgesOf edges c from rfl]
      cases hcase : parentEdgesOf edges c with
      | nil => exact absurd hcase hne
      | cons a b => simp
    rw [if_neg (by simp), if_neg hnb]
    rfl
  have hlen : k < (calcDepthParents edges (edges.length + 1) [c]
      (parentEdgesOf edges c)).1.length := by
    rw [calcDepthParents_length]
    exact hk
  have hdmem : (calcDepthParents edges (edges.length + 1) [c]
      (parentEdgesOf edges c)).1.getD k 0 ∈
      (calcDepthParents edges (edges.length + 1) [c] (parentEdgesOf edges c)).1 := by
    rw [List.getD_eq_getElem _ _ hlen]
    exact List.getElem_mem _
  have hd := foldl_max_mem _ 0 _ hdmem
  rw [show jsMaxList (calcDepthParents edges (edges.length + 1) [c]
      (parentEdgesOf edges c)).1 =
    (calcDepthParents edges (edges.length + 1) [c] (parentEdgesOf edges c)).1.foldl max 0
    from rfl] at heq
  unfold MAX_TREE_DEPTH at heq ⊢
  omega

/-- Witness for C6's amended theorem at the first parent edge of `c`. -/
theorem C6_amended_witness :
    calculateNodeDepth exE "c" = MAX_TREE_DEPTH ∨
    (calcDepthParents exE (exE.length + 1) ["c"] (parentEdgesOf exE "c")).1.getD 0 0 + 1 ≤
      calculateNodeDepth exE "c" :=
  C6_amended exE "c" 0 (by decide)

/-- Counting nodes by an id-predicate only depends on the id list. -/
lemma countP_congr_by_id (f : String → Bool) : ∀ (l1 l2 : List Node),
    l1.map Node.id = l2.map Node.id →
    l1.countP (fun m => f m.id) = l2.countP (fun m => f m.id) := by
  intro l1
  induction l1 with
  | nil =>
      intro l2 h
      have : l2.map Node.id = [] := h.symm
      rw [List.map_eq_nil_iff] at this
      rw [this]
  | cons a l1 ih =>
      intro l2 h
      cases l2 with
      | nil => simp at h
      | cons b l2 =>
          simp only [List.map_cons, List.cons.injEq] at h
          simp [List.countP_cons, h.1, ih l2 h.2]

/-- The layout position only depends on the edges and the node ids, not on
the stored positions. -/
lemma treeLayoutPos_congr (edges : List Edge) (all all' : List Node) (i : Nat) (n n' : Node)
    (hids : all'.map Node.id = all.map Node.id) (hn : n'.id = n.id) :
    treeLayoutPos edges all' i n' = treeLayoutPos edges all i n := by
  have htake : (all'.take i).map Node.id = (all.take i).map Node.id := by
    rw [List.map_take, List.map_take, hids]
  simp only [treeLayoutPos, hn]
  rw [countP_congr_by_id
    (fun x => decide (calculateNodeDepth edges x = calculateNodeDepth edges n.id)) all' all hids]
  rw [countP_congr_by_id
    (fun x => decide (calculateNodeDepth edges x = calculateNodeDepth edges n.id))
    (all'.take i) (all.take i) htake]

/-- Repositioning never changes the id sequence. -/
lemma layoutNodes_map_id (edges : List Edge) (all : List Node) :
    ∀ (i : Nat) (l : List Node), (layoutNodes edges all i l).map Node.id = l.map Node.id := by
  intro i l
  induction l generalizing i with
  | nil => rfl
  | cons n rest ih => simp [layoutNodes, ih]

/-- Re-running the per-node positioning over an already repositioned list
is the identity on it. -/
lemma layoutNodes_idem (edges : List Edge) (all all' : List Node)
    (hids : all'.map Node.id = all.map Node.id) :
    ∀ (l : List Node) (i : Nat),
      layoutNodes edges all' i (layoutNodes edges all i l) = layoutNodes edges all i l := by
  intro l
  induction l with
  | nil => intro i; rfl
  | cons n rest ih =>
      intro i
      simp only [layoutNodes]
      rw [ih (i + 1),
        treeLayoutPos_congr edges all all' i n { n with position := treeLayoutPos edges all i n }
          hids rfl]

/-- C9.  Confirmed.  `recalculateTreeLayout` is idempotent: the computed
depths and sibling indices depend only on the edges and the node id order,
which a layout pass never changes, so a second pass with no intervening
mutation reassigns every node the exact position the first pass gave it. -/
theorem C9_layout_idempotent (g : Graph) :
    recalculateTreeLayout (recalculateTreeLayout g) = recalculateTreeLayout g := by
  unfold recalculateTreeLayout
  have h := layoutNodes_idem g.edges g.nodes (layoutNodes g.edges g.nodes 0 g.nodes)
    (layoutNodes_map_id g.edges g.nodes 0 g.nodes) g.nodes 0
  exact congrArg (fun ns => Graph.mk ns g.edges) h

/-- The hub fold keeps the first node attaining the running maximum: either
no element beats the initial count (accumulator returned unchanged), or the
result is a list member whose count is the final maximum, every node
before it counts strictly less, and every node after counts no more. -/
lemma hubFold_first_max (edges : List Edge) :
    ∀ (l : List Node) (b : Node) (c : Nat),
    ((l.foldl (hubFoldStep edges) (b, c) = (b, c) ∧
        ∀ x ∈ l, connectionsCount edges x.id ≤ c) ∨
     (∃ pre post, l = pre ++ (l.foldl (hubFoldStep edges) (b, c)).1 :: post ∧
        connectionsCount edges (l.foldl (hubFoldStep edges) (b, c)).1.id =
          (l.foldl (hubFoldStep edges) (b, c)).2 ∧
        c < (l.foldl (hubFoldStep edges) (b, c)).2 ∧
        (∀ x ∈ pre, connectionsCount edges x.id < (l.foldl (hubFoldStep edges) (b, c)).2) ∧
        (∀ x ∈ post, connectionsCount edges x.id ≤ (l.foldl (hubFoldStep edges) (b, c)).2))) := by
  intro l
  induction l with
  | nil => intro b c; exact Or.inl ⟨rfl, by simp⟩
  | cons x rest ih =>
      intro b c
      by_cases hx : connectionsCount edges x.id > c
      · have hstep : hubFoldStep edges (b, c) x = (x, connectionsCount edges x.id) := by
          simp [hubFoldStep, hx]
        rw [List.foldl_cons, hstep]
        rcases ih x (connectionsCount edges x.id) with ⟨heq, hall⟩ |
          ⟨pre, post, hsplit, hcnt, hlt, hpre, hpost⟩
        · refine Or.inr ⟨[], rest, ?_, ?_, ?_, ?_, ?_⟩
          · rw [heq]; rfl
          · rw [heq]
          · rw [heq]; exact hx
          · intro y hy; cases hy
          · intro y hy; rw [heq]; exact hall y hy
        · refine Or.inr ⟨x :: pre, post, ?_, hcnt, lt_trans hx hlt, ?_, hpost⟩
          · rw [List.cons_append, ← hsplit]
          · intro y hy
            rcases List.mem_cons.mp hy with rfl | hy
            · exact hlt
            · exact hpre y hy
      · have hstep : hubFoldStep edges (b, c) x = (b, c) := by
          simp [hubFoldStep, hx]
        rw [List.foldl_cons, hstep]
        rcases ih b c with ⟨heq, hall⟩ | ⟨pre, post, hsplit, hcnt, hlt, hpre, hpost⟩
        · refine Or.inl ⟨heq, ?_⟩
          intro y hy
          rcases List.mem_cons.mp hy with rfl | hy
          · omega
          · exact hall y hy
        · refine Or.inr ⟨x :: pre, post, ?_, hcnt, hlt, ?_, hpost⟩
          · rw [List.cons_append, ← hsplit]
          · intro y hy
            rcases List.mem_cons.mp hy with rfl | hy
            · omega
            · exact hpre y hy

/-- The hub of a non-empty graph holds the maximum connection count, and is
the first node in insertion order attaining it. -/
lemma hubOf_spec (g : Graph) (hne : g.nodes ≠ []) :
    (∀ m ∈ g.nodes, connectionsCount g.edges m.id ≤ connectionsCount g.edges (hubOf g).id) ∧
    ∃ pre post, g.nodes = pre ++ hubOf g :: post ∧
      ∀ x ∈ pre, connectionsCount g.edges x.id < connectionsCount g.edges (hubOf g).id := by
  rcases hn : g.nodes with _ | ⟨n0, rest⟩
  · exact absurd hn hne
  · have hhead : g.nodes.headD dummyNode = n0 := by rw [hn]; rfl
    unfold hubOf
    rw [hhead, hn]
    rcases hubFold_first_max g.edges (n0 :: rest) n0 0 with ⟨heq, hall⟩ |
      ⟨pre, post, hsplit, hcnt, _, hpre, hpost⟩
    · rw [heq]
      constructor
      · intro m hm
        exact le_trans (hall m hm) (Nat.zero_le _)
      · exact ⟨[], rest, rfl, fun y hy => absurd hy (List.not_mem_nil y)⟩
    · constructor
      · intro m hm
        rw [hsplit] at hm
        rcases List.mem_append.mp hm with hmp | hmc
        · exact le_of_lt (hcnt ▸ hpre m hmp)
        · rcases List.mem_cons.mp hmc with rfl | hmp
          · exact le_refl _
          · exact hcnt ▸ hpost m hmp
      · exact ⟨pre, post, hsplit, fun y hy => hcnt ▸ hpre y hy⟩

/-- Connection counts add over edge-list concatenation. -/
lemma connectionsCount_append (e1 e2 : List Edge) (i : String) :
    connectionsCount (e1 ++ e2) i = connectionsCount e1 i + connectionsCount e2 i := by
  simp [connectionsCount, List.filter_append]

/-- The edge record appended by the fallback loop for the `k`-th isolated
node. -/
def fallbackEdge (hub : String) (idSupply : Nat → String) (p : Nat × Node) : Edge :=
  { id := idSupply p.1, source := hub, target := p.2.id, label := none
    relationship := some "relates to", type := "smoothstep", animated := false }

/-- Unrolling the fallback loop: it appends exactly one `hub → isolated`
edge per isolated node, ids drawn from the supply in order. -/
lemma fallbackFold_eq (hub : String) (idSupply : Nat → String) :
    ∀ (l : List Node) (k : Nat) (G : Graph),
      l.foldl (fun acc isoNode =>
          (acc.1 + 1, (GraphService.addEdge acc.2 hub isoNode.id none
            (some "relates to") none none (idSupply acc.1)).2)) (k, G) =
        (k + l.length,
         { G with edges := G.edges ++ (List.enumFrom k l).map (fallbackEdge hub idSupply) }) := by
  intro l
  induction l with
  | nil => intro k G; simp
  | cons iso rest ih =>
      intro k G
      rw [List.foldl_cons, ih]
      simp only [GraphService.addEdge, List.enumFrom, List.map_cons, List.length_cons,
        Prod.mk.injEq]
      refine ⟨by omega, ?_⟩
      simp [fallbackEdge, List.append_assoc]

/-- The layout pass keeps the edge list. -/
lemma recalc_edges (G : Graph) : (recalculateTreeLayout G).edges = G.edges := rfl

/-- The layout pass keeps the node id sequence. -/
lemma recalc_nodes_map_id (G : Graph) :
    (recalculateTreeLayout G).nodes.map Node.id = G.nodes.map Node.id :=
  layoutNodes_map_id G.edges G.nodes 0 G.nodes

/-- C3.  Confirmed.  For a non-empty graph with at least one isolated node,
the rule-based finalize fallback adds exactly one edge per isolated node —
each from the hub (first node attaining the maximum connection count, in
insertion order) to an isolated node, with relationship `"relates to"` —
after which no isolated node remains and the edge count has grown by
exactly the prior isolated-node count. -/
theorem C3_finalize_fallback (g : Graph) (idSupply : Nat → String)
    (hne : g.nodes ≠ []) (hiso : isolatedNodes g ≠ []) :
    (finalizeFallback g idSupply).1 = (isolatedNodes g).length ∧
    (finalizeFallback g idSupply).2.edges =
      g.edges ++ (List.enumFrom 0 (isolatedNodes g)).map (fallbackEdge (hubOf g).id idSupply) ∧
    (finalizeFallback g idSupply).2.edges.length = g.edges.length + (isolatedNodes g).length ∧
    isolatedNodes (finalizeFallback g idSupply).2 = [] ∧
    (∀ m ∈ g.nodes, connectionsCount g.edges m.id ≤ connectionsCount g.edges (hubOf g).id) ∧
    (∃ pre post, g.nodes = pre ++ hubOf g :: post ∧
       ∀ x ∈ pre, connectionsCount g.edges x.id < connectionsCount g.edges (hubOf g).id) := by
  have hIsoB : (isolatedNodes g).isEmpty = false := by
    cases h : isolatedNodes g with
    | nil => exact absurd h hiso
    | cons a l => rfl
  have hres : finalizeFallback g idSupply =
      ((isolatedNodes g).length,
       recalculateTreeLayout
         { g with edges := g.edges ++
             (List.enumFrom 0 (isolatedNodes g)).map (fallbackEdge (hubOf g).id idSupply) }) := by
    simp only [finalizeFallback, hIsoB, Bool.false_eq_true, if_false]
    rw [fallbackFold_eq (hubOf g).id idSupply (isolatedNodes g) 0 g]
    simp
  have hres1 : (finalizeFallback g idSupply).1 = (isolatedNodes g).length := by
    rw [hres]
  have hres2 : (finalizeFallback g idSupply).2.edges =
      g.edges ++ (List.enumFrom 0 (isolatedNodes g)).map (fallbackEdge (hubOf g).id idSupply) := by
    rw [hres]
    rfl
  have hres3 : (finalizeFallback g idSupply).2.nodes.map Node.id = g.nodes.map Node.id := by
    rw [hres]
    exact recalc_nodes_map_id _
  refine ⟨hres1, hres2, ?_, ?_, (hubOf_spec g hne).1, (hubOf_spec g hne).2⟩
  · rw [hres2]
    simp
  · apply List.filter_eq_nil_iff.mpr
    intro n hn
    have hid : n.id ∈ g.nodes.map Node.id := by
      rw [← hres3]
      exact List.mem_map_of_mem Node.id hn
    obtain ⟨b, hb, hbid⟩ := List.mem_map.mp hid
    simp only [decide_eq_true_eq]
    rw [hres2, connectionsCount_append]
    by_cases hb0 : connectionsCount g.edges n.id = 0
    · have hbIso : b ∈ isolatedNodes g := by
        apply List.mem_filter.mpr
        refine ⟨hb, ?_⟩
        rw [hbid, hb0]
        rfl
      have hbsnd : b ∈ (List.enumFrom 0 (isolatedNodes g)).map Prod.snd := by
        rw [List.enumFrom_map_snd]
        exact hbIso
      obtain ⟨p, hp, hp2⟩ := List.mem_map.mp hbsnd
      have hEmem : fallbackEdge (hubOf g).id idSupply p ∈
          (List.enumFrom 0 (isolatedNodes g)).map (fallbackEdge (hubOf g).id idSupply) :=
        List.mem_map_of_mem _ hp
      have hq : (fallbackEdge (hubOf g).id idSupply p).target = n.id := by
        simp only [fallbackEdge]
        rw [hp2, hbid]
      have hpos : 0 < connectionsCount
          ((List.enumFrom 0 (isolatedNodes g)).map (fallbackEdge (hubOf g).id idSupply)) n.id := by
        apply List.length_pos.mpr
        apply List.ne_nil_of_mem (a := fallbackEdge (hubOf g).id idSupply p)
        apply List.mem_filter.mpr
        exact ⟨hEmem, by simp [hq]⟩
      omega
    · omega

/-- Witness for C3 on the five-node test graph (hub `A` with three edges,
isolated node `E`). -/
theorem C3_finalize_fallback_witness :
    (finalizeFallback exG3 (fun k => Nat.repr k)).1 = (isolatedNodes exG3).length ∧
    (finalizeFallback exG3 (fun k => Nat.repr k)).2.edges =
      exG3.edges ++ (List.enumFrom 0 (isolatedNodes exG3)).map
        (fallbackEdge (hubOf exG3).id (fun k => Nat.repr k)) ∧
    (finalizeFallback exG3 (fun k => Nat.repr k)).2.edges.length =
      exG3.edges.length + (isolatedNodes exG3).length ∧
    isolatedNodes (finalizeFallback exG3 (fun k => Nat.repr k)).2 = [] ∧
    (∀ m ∈ exG3.nodes, connectionsCount exG3.edges m.id ≤
        connectionsCount exG3.edges (hubOf exG3).id) ∧
    (∃ pre post, exG3.nodes = pre ++ hubOf exG3 :: post ∧
       ∀ x ∈ pre, connectionsCount exG3.edges x.id <
          connectionsCount exG3.edges (hubOf exG3).id) :=
  C3_finalize_fallback exG3 (fun k => Nat.repr k) (by decide) (by decide)

/-- The merge transfer loop leaves nodes alone and appends, per pre-existing
edge with exactly one endpoint in the merged set, one re-created edge whose
id-independent content is `transferKey`. -/
lemma mergeTransfer_fold (nodeIds : List String) (mid : String) (sup : Nat → String) :
    ∀ (l : List Edge) (k : Nat) (G : Graph),
      (l.foldl (mergeTransferStep nodeIds mid sup) (k, G)).2.nodes = G.nodes ∧
      (l.foldl (mergeTransferStep nodeIds mid sup) (k, G)).2.edges.map edgeKey =
        G.edges.map edgeKey ++ l.filterMap (transferKey nodeIds mid) := by
  intro l
  induction l with
  | nil => intro k G; exact ⟨rfl, by simp⟩
  | cons e rest ih =>
      intro k G
      rw [List.foldl_cons]
      by_cases hc1 : e.source ∈ nodeIds ∧ e.target ∉ nodeIds
      · have hstep : mergeTransferStep nodeIds mid sup (k, G) e =
            (k + 1, (addEdge G mid e.target e.label none
              (some e.type) (some e.animated) (sup k)).2) := by
          simp [mergeTransferStep, hc1]
        rw [hstep]
        obtain ⟨ihn, ihe⟩ := ih (k + 1)
          ((addEdge G mid e.target e.label none (some e.type) (some e.animated) (sup k)).2)
        refine ⟨by rw [ihn]; rfl, ?_⟩
        rw [ihe]
        simp [GraphService.addEdge, edgeKey, transferKey, hc1, List.filterMap_cons,
          List.append_assoc]
      · by_cases hc2 : e.source ∉ nodeIds ∧ e.target ∈ nodeIds
        · have hstep : mergeTransferStep nodeIds mid sup (k, G) e =
              (k + 1, (addEdge G e.source mid e.label none
                (some e.type) (some e.animated) (sup k)).2) := by
            simp [mergeTransferStep, hc1, hc2]
          rw [hstep]
          obtain ⟨ihn, ihe⟩ := ih (k + 1)
            ((addEdge G e.source mid e.label none (some e.type) (some e.animated) (sup k)).2)
          refine ⟨by rw [ihn]; rfl, ?_⟩
          rw [ihe]
          simp [GraphService.addEdge, edgeKey, transferKey, hc1, hc2, List.filterMap_cons,
            List.append_assoc]
        · have hstep : mergeTransferStep nodeIds mid sup (k, G) e = (k, G) := by
            simp [mergeTransferStep, hc1, hc2]
          rw [hstep]
          obtain ⟨ihn, ihe⟩ := ih k G
          refine ⟨ihn, ?_⟩
          rw [ihe]
          simp [transferKey, hc1, hc2, List.filterMap_cons]

/-- Erasing at the found index of a unique id equals filtering that id out. -/
lemma eraseIdx_findIdx_filter (i : String) : ∀ (l : List Node) (st idx : Nat),
    (l.map Node.id).Nodup →
    List.findIdx? (fun node => node.id = i) l st = some idx →
    st ≤ idx ∧ l.eraseIdx (idx - st) = l.filter (fun n => decide (n.id ≠ i)) := by
  intro l
  induction l with
  | nil => intro st idx _ h; simp [List.findIdx?] at h
  | cons a rest ih =>
      intro st idx hnd h
      rw [List.findIdx?_cons] at h
      by_cases ha : a.id = i
      · rw [if_pos (by simp [ha])] at h
        have hidx : idx = st := by simpa using h.symm
        subst hidx
        refine ⟨le_refl _, ?_⟩
        rw [Nat.sub_self]
        have hrest : rest.filter (fun n => decide (n.id ≠ i)) = rest := by
          apply List.filter_eq_self.mpr
          intro n hn
          have hani : a.id ∉ rest.map Node.id := by
            rw [List.map_cons, List.nodup_cons] at hnd
            exact hnd.1
          simp only [decide_eq_true_eq]
          intro hni
          exact hani (by rw [ha, ← hni]; exact List.mem_map_of_mem Node.id hn)
        rw [List.eraseIdx_cons_zero, List.filter_cons_of_neg (by simp [ha]), hrest]
      · rw [if_neg (by simp [ha])] at h
        have hndr : (rest.map Node.id).Nodup := by
          rw [List.map_cons, List.nodup_cons] at hnd
          exact hnd.2
        obtain ⟨hle, herase⟩ := ih (st + 1) idx hndr h
        refine ⟨by omega, ?_⟩
        have hsub : idx - st = (idx - (st + 1)) + 1 := by omega
        rw [hsub, List.eraseIdx_cons_succ, herase,
          List.filter_cons_of_pos (by simp [ha])]

/-- With unique node ids, removing a present node filters that id out of
the nodes and every touching edge out of the edges. -/
lemma removeNode_found (G : Graph) (i : String)
    (hex : ∃ n ∈ G.nodes, n.id = i) (hnd : (G.nodes.map Node.id).Nodup) :
    (removeNode G i).2 =
      { nodes := G.nodes.filter (fun n => decide (n.id ≠ i))
        edges := G.edges.filter (fun e => decide (e.source ≠ i ∧ e.target ≠ i)) } := by
  rcases hfind : G.nodes.findIdx? (fun node => node.id = i) with _ | idx
  · rw [List.findIdx?_eq_none_iff] at hfind
    obtain ⟨n, hn, hni⟩ := hex
    have := hfind n hn
    simp [hni] at this
  · unfold removeNode
    rw [hfind]
    have h := eraseIdx_findIdx_filter i G.nodes 0 idx hnd hfind
    have h2 := h.2
    rw [Nat.sub_zero] at h2
    dsimp only
    rw [h2]

/-- Folding `removeNode` over a duplicate-free list of present ids filters
those ids out of the nodes and every touching edge out of the edges. -/
lemma removeNodes_fold : ∀ (ids : List String) (G : Graph),
    ids.Nodup →
    (∀ i ∈ ids, ∃ n ∈ G.nodes, n.id = i) →
    (G.nodes.map Node.id).Nodup →
    (ids.foldl (fun acc i => (removeNode acc i).2) G).nodes =
        G.nodes.filter (fun n => decide (n.id ∉ ids)) ∧
    (ids.foldl (fun acc i => (removeNode acc i).2) G).edges =
        G.edges.filter (fun e => decide (e.source ∉ ids ∧ e.target ∉ ids)) := by
  intro ids
  induction ids with
  | nil =>
      intro G _ _ _
      constructor <;> simp
  | cons i rest ih =>
      intro G hndIds hex hndG
      rw [List.foldl_cons]
      have hrm := removeNode_found G i (hex i (List.mem_cons_self i rest)) hndG
      rw [hrm]
      have hndIds' := List.nodup_cons.mp hndIds
      have hex1 : ∀ i2 ∈ rest, ∃ n ∈
          (G.nodes.filter (fun n => decide (n.id ≠ i))), n.id = i2 := by
        intro i2 h2
        obtain ⟨n, hn, hni2⟩ := hex i2 (List.mem_cons_of_mem i h2)
        refine ⟨n, List.mem_filter.mpr ⟨hn, ?_⟩, hni2⟩
        simp only [decide_eq_true_eq]
        rw [hni2]
        intro hcontra
        exact hndIds'.1 (hcontra ▸ h2)
      have hnd1 : ((G.nodes.filter (fun n => decide (n.id ≠ i))).map Node.id).Nodup :=
        ((List.filter_sublist G.nodes).map Node.id).nodup hndG
      obtain ⟨hn1, he1⟩ := ih { nodes := G.nodes.filter (fun n => decide (n.id ≠ i))
                                edges := G.edges.filter
                                  (fun e => decide (e.source ≠ i ∧ e.target ≠ i)) }
        hndIds'.2 hex1 hnd1
      rw [hn1, he1]
      constructor
      · rw [List.filter_filter]
        apply List.filter_congr
        intro n _
        rw [Bool.eq_iff_iff]
        simp only [Bool.and_eq_true, decide_eq_true_eq, List.mem_cons, not_or]
        tauto
      · rw [List.filter_filter]
        apply List.filter_congr
        intro e _
        rw [Bool.eq_iff_iff]
        simp only [Bool.and_eq_true, decide_eq_true_eq, List.mem_cons, not_or]
        tauto

/-- Unfolding of `mergeNodes` when at least two of the requested nodes
exist. -/
lemma mergeNodes_pos_eq (g : Graph) (nodeIds : List String) (lbl : String) (cat : Option String)
    (newNodeId : String) (sup : Nat → String)
    (h2 : ¬ (g.nodes.filter (fun n => decide (n.id ∈ nodeIds))).length < 2) :
    mergeNodes g nodeIds lbl cat newNodeId sup =
      (some (addNode g
          { label := lbl, category := cat.getD "System"
            position := none, importance := some NodeImportance.large } newNodeId).1,
       nodeIds.foldl (fun acc i => (removeNode acc i).2)
         { nodes := (g.edges.foldl
             (mergeTransferStep nodeIds
               (addNode g
                 { label := lbl, category := cat.getD "System"
                   position := none, importance := some NodeImportance.large } newNodeId).1.id sup)
             ((0 : Nat),
              (addNode g
                { label := lbl, category := cat.getD "System"
                  position := none, importance := some NodeImportance.large } newNodeId).2)).2.nodes
           edges := ((g.edges.foldl
             (mergeTransferStep nodeIds
               (addNode g
                 { label := lbl, category := cat.getD "System"
                   position := none, importance := some NodeImportance.large } newNodeId).1.id sup)
             ((0 : Nat),
              (addNode g
                { label := lbl, category := cat.getD "System"
                  position := none, importance := some NodeImportance.large } newNodeId).2)).2.edges.filter
             (fun edge => decide (¬ (edge.source ∈ nodeIds ∧ edge.target ∈ nodeIds)))) }) := by
  simp only [mergeNodes, if_neg h2]

/-- C7.  Corrected.  Merging re-creates every pre-existing edge with
exactly one endpoint in the merged set with that endpoint replaced by the
new node, drops internal edges, and removes all merged nodes; merging
fewer than 2 existing nodes fails leaving the graph unchanged.  However
the re-created edges carry only the `label` field — the `relationship`
field, where `server.ts` stores the semantic connection label, is reset to
`undefined` by the positional `addEdge` call, so "relationship label
preserved" fails. -/
theorem C7_merge (g : Graph) (nodeIds : List String) (lbl : String) (cat : Option String)
    (newNodeId : String) (sup : Nat → String) :
    ((g.nodes.filter (fun n => decide (n.id ∈ nodeIds))).length < 2 →
       mergeNodes g nodeIds lbl cat newNodeId sup = (none, g)) ∧
    (2 ≤ (g.nodes.filter (fun n => decide (n.id ∈ nodeIds))).length →
     nodeIds.Nodup →
     (g.nodes.map Node.id).Nodup →
     newNodeId ∉ nodeIds →
     newNodeId ∉ g.nodes.map Node.id →
     (∀ i ∈ nodeIds, ∃ n ∈ g.nodes, n.id = i) →
       Option.map Node.id (mergeNodes g nodeIds lbl cat newNodeId sup).1 = some newNodeId ∧
       (mergeNodes g nodeIds lbl cat newNodeId sup).2.nodes.map Node.id =
         (g.nodes.map Node.id).filter (fun i => decide (i ∉ nodeIds)) ++ [newNodeId] ∧
       (mergeNodes g nodeIds lbl cat newNodeId sup).2.edges.map edgeKey =
         (g.edges.filter (fun e => decide (e.source ∉ nodeIds ∧ e.target ∉ nodeIds))).map
           edgeKey ++ g.edges.filterMap (transferKey nodeIds newNodeId)) := by
  constructor
  · intro hlt
    simp only [mergeNodes, if_pos hlt]
  · intro h2 hndIds hndG hfresh hfreshG hexist
    have hnot : ¬ (g.nodes.filter (fun n => decide (n.id ∈ nodeIds))).length < 2 := by omega
    rw [mergeNodes_pos_eq g nodeIds lbl cat newNodeId sup hnot]
    have hMid : (addNode g
        { label := lbl, category := cat.getD "System"
          position := none, importance := some NodeImportance.large } newNodeId).1.id =
        newNodeId := rfl
    rw [hMid]
    obtain ⟨hFnodes, hFedges⟩ := mergeTransfer_fold nodeIds newNodeId sup g.edges 0
      (addNode g
        { label := lbl, category := cat.getD "System"
          position := none, importance := some NodeImportance.large } newNodeId).2
    generalize hFdef : (g.edges.foldl (mergeTransferStep nodeIds newNodeId sup)
        ((0 : Nat),
         (addNode g
           { label := lbl, category := cat.getD "System"
             position := none, importance := some NodeImportance.large } newNodeId).2)).2 = F
      at hFnodes hFedges ⊢
    have hFnodes' : F.nodes = g.nodes ++ [(addNode g
        { label := lbl, category := cat.getD "System"
          position := none, importance := some NodeImportance.large } newNodeId).1] := hFnodes
    have hFedges' : F.edges.map edgeKey =
        g.edges.map edgeKey ++ g.edges.filterMap (transferKey nodeIds newNodeId) := hFedges
    rw [hFnodes']
    have hexist3 : ∀ i ∈ nodeIds, ∃ n ∈ (g.nodes ++ [(addNode g
        { label := lbl, category := cat.getD "System"
          position := none, importance := some NodeImportance.large } newNodeId).1]),
        n.id = i := by
      intro i hi
      obtain ⟨n, hn, hni⟩ := hexist i hi
      exact ⟨n, List.mem_append_left _ hn, hni⟩
    have hnd3 : ((g.nodes ++ [(addNode g
        { label := lbl, category := cat.getD "System"
          position := none, importance := some NodeImportance.large } newNodeId).1]).map
          Node.id).Nodup := by
      rw [List.map_append, List.nodup_append]
      refine ⟨hndG, List.nodup_singleton _, ?_⟩
      intro x hx
      simp only [List.map_cons, List.map_nil, List.mem_singleton]
      intro hxe
      rw [hMid] at hxe
      exact hfreshG (hxe ▸ hx)
    obtain ⟨hRn, hRe⟩ := removeNodes_fold nodeIds
      (Graph.mk (g.nodes ++ [(addNode g
        { label := lbl, category := cat.getD "System"
          position := none, importance := some NodeImportance.large } newNodeId).1])
        (F.edges.filter (fun edge => decide (¬ (edge.source ∈ nodeIds ∧ edge.target ∈ nodeIds)))))
      hndIds hexist3 hnd3
    dsimp only at hRn hRe
    refine ⟨rfl, ?_, ?_⟩
    · rw [hRn, List.filter_append, List.map_append]
      have hMfilter : ([(addNode g
          { label := lbl, category := cat.getD "System"
            position := none, importance := some NodeImportance.large } newNodeId).1].filter
            (fun n => decide (n.id ∉ nodeIds))).map Node.id = [newNodeId] := by
        rw [List.filter_cons_of_pos]
        · rw [List.filter_nil, List.map_cons, List.map_nil, hMid]
        · rw [hMid]
          simpa using hfresh
      rw [hMfilter]
      rw [show (fun (n : Node) => decide (n.id ∉ nodeIds)) =
        ((fun i => decide (i ∉ nodeIds)) ∘ Node.id) from rfl, ← List.filter_map]
    · rw [hRe]
      rw [show (fun (e : Edge) => decide (e.source ∉ nodeIds ∧ e.target ∉ nodeIds)) =
        ((fun kk : String × String × Option String × Option String =>
          decide (kk.1 ∉ nodeIds ∧ kk.2.1 ∉ nodeIds)) ∘ edgeKey) from rfl, ← List.filter_map]
      rw [show (fun (edge : Edge) => decide (¬ (edge.source ∈ nodeIds ∧ edge.target ∈ nodeIds))) =
        ((fun kk : String × String × Option String × Option String =>
          decide (¬ (kk.1 ∈ nodeIds ∧ kk.2.1 ∈ nodeIds))) ∘ edgeKey) from rfl, ← List.filter_map]
      rw [hFedges']
      rw [List.filter_append, List.filter_append]
      have hTprops : ∀ kk ∈ g.edges.filterMap (transferKey nodeIds newNodeId),
          kk.1 ∉ nodeIds ∧ kk.2.1 ∉ nodeIds := by
        intro kk hkk
        obtain ⟨e, _, hkey⟩ := List.mem_filterMap.mp hkk
        unfold transferKey at hkey
        by_cases hc1 : e.source ∈ nodeIds ∧ e.target ∉ nodeIds
        · rw [if_pos hc1] at hkey
          cases hkey
          exact ⟨hfresh, hc1.2⟩
        · rw [if_neg hc1] at hkey
          by_cases hc2 : e.source ∉ nodeIds ∧ e.target ∈ nodeIds
          · rw [if_pos hc2] at hkey
            cases hkey
            exact ⟨hc2.1, hfresh⟩
          · rw [if_neg hc2] at hkey
            cases hkey
      have hTP : (g.edges.filterMap (transferKey nodeIds newNodeId)).filter
          (fun kk => decide (¬ (kk.1 ∈ nodeIds ∧ kk.2.1 ∈ nodeIds))) =
          g.edges.filterMap (transferKey nodeIds newNodeId) := by
        apply List.filter_eq_self.mpr
        intro kk hkk
        have hk := hTprops kk hkk
        simp only [decide_eq_true_eq]
        intro hcontra
        exact hk.1 hcontra.1
      have hTQ : (g.edges.filterMap (transferKey nodeIds newNodeId)).filter
          (fun kk => decide (kk.1 ∉ nodeIds ∧ kk.2.1 ∉ nodeIds)) =
          g.edges.filterMap (transferKey nodeIds newNodeId) := by
        apply List.filter_eq_self.mpr
        intro kk hkk
        have hk := hTprops kk hkk
        simp only [decide_eq_true_eq]
        exact hk
      rw [hTP, hTQ]
      have horig : ((g.edges.map edgeKey).filter
          (fun kk => decide (¬ (kk.1 ∈ nodeIds ∧ kk.2.1 ∈ nodeIds)))).filter
          (fun kk => decide (kk.1 ∉ nodeIds ∧ kk.2.1 ∉ nodeIds)) =
          (g.edges.map edgeKey).filter
            (fun kk => decide (kk.1 ∉ nodeIds ∧ kk.2.1 ∉ nodeIds)) := by
        rw [List.filter_filter]
        apply List.filter_congr
        intro kk _
        rw [Bool.eq_iff_iff]
        simp only [Bool.and_eq_true, decide_eq_true_eq]
        tauto
      rw [horig]
      rw [List.filter_map]

/-- Witness for C7's amended theorem on the spec's example graph `A,B,C,D`
with edges `A→B, B→C, B→D`, merging `{A, B}` into a node `M`. -/
theorem C7_merge_witness :
    Option.map Node.id
        (mergeNodes exG7 ["A", "B"] "M" none "Mid" (fun k => Nat.repr k)).1 = some "Mid" ∧
    (mergeNodes exG7 ["A", "B"] "M" none "Mid" (fun k => Nat.repr k)).2.nodes.map Node.id =
      (exG7.nodes.map Node.id).filter (fun i => decide (i ∉ ["A", "B"])) ++ ["Mid"] ∧
    (mergeNodes exG7 ["A", "B"] "M" none "Mid" (fun k => Nat.repr k)).2.edges.map edgeKey =
      (exG7.edges.filter
        (fun e => decide (e.source ∉ ["A", "B"] ∧ e.target ∉ ["A", "B"]))).map edgeKey ++
        exG7.edges.filterMap (transferKey ["A", "B"] "Mid") :=
  (C7_merge exG7 ["A", "B"] "M" none "Mid" (fun k => Nat.repr k)).2 (by decide) (by decide)
    (by decide) (by decide) (by decide) (by decide)

/-- C7.  The counterexample to "relationship label preserved": merging
`{A, B}` in a graph whose edges carry their semantic label in the
`relationship` field (as the `process-transcript` handler writes them)
yields re-created edges `M→C`, `M→D` whose `relationship` is `undefined` —
no edge of the result carries `"supports"` any more. -/
theorem C7_counterexample :
    (mkER "B" "C" "supports") ∈ exG7.edges ∧
    (mkER "B" "C" "supports").relationship = some "supports" ∧
    (mergeNodes exG7 ["A", "B"] "M" none "Mid" (fun k => Nat.repr k)).2.edges.map
      Edge.relationship = [none, none] ∧
    ∀ e ∈ (mergeNodes exG7 ["A", "B"] "M" none "Mid" (fun k => Nat.repr k)).2.edges,
      e.relationship ≠ some "supports" := by
  refine ⟨by decide, rfl, by decide, by decide⟩

end Claims
